import Mathlib

/-!
Verification development for the microinjector firmware v2.0
(`src/injector2/microinject/microinject.ino`).

The firmware drives a single stepper motor from a line-based serial
console.  Its motion-control core consists of

* `computeSpeed` — the per-tick velocity profile (float kinematics,
  modelled here over `ℝ`, the standard idealisation of the firmware's
  `float` arithmetic);
* the `loop()` function — a cooperative tick that services the motor
  (`AccelStepper.runSpeed`), checks completion/abort of the active move,
  and processes console commands while idle.  It is modelled as a pure
  transition function `tick` on an explicit `Machine` record holding the
  firmware's globals, together with a list of emitted events modelling
  the observable side effects (driver enable/disable, serial messages).

Whether `runSpeed()` actually fires a step on a given pass depends on
wall-clock timing (the commanded speed's reciprocal interval), which is
outside a pure embedding; it is represented by the `stepDue` oracle of
each tick's input.  The commanded speed is always `computeSpeed … ≥ 1`,
so steps keep becoming due while a move is active.
-/

namespace Microinject

/-- The `Step` struct of the firmware: one move specification.
Speeds and acceleration are `float`s in the source; they are carried as
rationals in the machine model (the state-machine logic never computes
with them) and as reals in the velocity-profile model. -/
structure GStep where
  forward : Bool
  distance : Int
  start_speed : ℚ
  end_speed : ℚ
  accel : ℚ
deriving DecidableEq

/-- The `State` enum of the firmware
(`STATE_IDLE, STATE_MOVING_MANUAL, STATE_MOVING_PROG`). -/
inductive MState where
  | idle
  | movingManual
  | movingProg
deriving DecidableEq

/-- Observable side effects of one pass through `loop()`: driver-line
operations and the serial messages the firmware prints.  The constructor
`rejectedBusy` comes from the specification's outbound-event taxonomy
(`Rejected(Busy)`); the firmware itself never emits it, and it is
included so that statements about that event can be written down. -/
inductive Ev where
  | stepTaken
  | setSpeedZero
  | outputsDisabled
  | outputsEnabled
  | moveComplete
  | stepAdvanced (n : Nat)
  | programComplete
  | aborted
  | stepAdded
  | stepDeleted
  | programFull
  | invalidStepNumber
  | programCleared
  | programEmpty
  | rejectedBusy
  | menuShown
  | helpShown
  | programShown
  | editUsageShown
  | unknownCmd
deriving DecidableEq

/-- The firmware's global state: the program array (live prefix
`program[0..programCount)` as a list), the active-move globals, the
state-machine enum, the program step index, the stepper position
(`stepper.currentPosition()`), and whether the driver outputs are
energised. -/
structure Machine where
  program : List GStep
  gMoving : Bool
  gTargetDist : Int
  gStartSpeed : ℚ
  gEndSpeed : ℚ
  gAccel : ℚ
  gFwd : Bool
  mstate : MState
  progStepIndex : Nat
  pos : Int
  enabled : Bool

/-- Placeholder returned by a (guarded, never reached) out-of-range read
of the program array. -/
def dummyStep : GStep := ⟨true, 0, 1, 1, 0⟩

/-- Global state after reset: empty program, no active move, idle,
outputs disabled by `setup()`. -/
def initMachine : Machine :=
  { program := []
    gMoving := false
    gTargetDist := 0
    gStartSpeed := 1
    gEndSpeed := 1
    gAccel := 0
    gFwd := true
    mstate := MState.idle
    progStepIndex := 0
    pos := 0
    enabled := false }

/-- `startStep(const Step&)`: reset the position to 0, load the
active-move globals (speeds floored at 1), and mark the move active. -/
def startStep (m : Machine) (st : GStep) : Machine :=
  { m with
    pos := 0
    gTargetDist := st.distance
    gStartSpeed := max 1 st.start_speed
    gEndSpeed := max 1 st.end_speed
    gAccel := st.accel
    gFwd := st.forward
    gMoving := true }

/-- One action inside the `[P]` program editor: `A` (with the prompted
step), `D n` (with the raw 1-based number parsed from the line), or any
other non-`Q` input. -/
inductive EditOp where
  | add (st : GStep)
  | del (n : Int)
  | other

/-- One console line, already parsed the way `loop()` dispatches it: the
dedicated mid-move abort line `"X"`, or one of the top-level menu
commands.  `manual` and `progEdit` carry the data gathered by the
blocking prompt loops that run inside the same `loop()` pass. -/
inductive Cmd where
  | abortX
  | manual (st : GStep)
  | progEdit (ops : List EditOp)
  | run
  | showProg
  | clear
  | help
  | empty
  | unknown

/-- Input consumed by one pass of `loop()`: whether `runSpeed()`'s step
interval has elapsed (timing oracle), and the pending serial line, if a
complete one is available. -/
structure TickInput where
  stepDue : Bool
  line : Option Cmd

/-- The in-place deletion loop of the program editor
(`for (i = idx; i < programCount - 1; i++) program[i] = program[i+1];
programCount--`): drop the element at the given index and shift the
rest down. -/
def deleteShift : List GStep → Nat → List GStep
  | [], _ => []
  | _ :: rest, 0 => rest
  | st :: rest, Nat.succ n => st :: deleteShift rest n

/-- One editor action applied to the stored program
(the `A`/`D n` branches of the `[P]` editor loop). -/
def applyEdit (prog : List GStep) (op : EditOp) : List GStep × List Ev :=
  match op with
  | EditOp.add st =>
      if 5 ≤ prog.length then (prog, [Ev.programFull])
      else (prog ++ [st], [Ev.stepAdded])
  | EditOp.del n =>
      if n - 1 < 0 ∨ (prog.length : Int) ≤ n - 1 then (prog, [Ev.invalidStepNumber])
      else (deleteShift prog (n - 1).toNat, [Ev.stepDeleted])
  | EditOp.other => (prog, [Ev.editUsageShown])

/-- The whole `[P]` editor session (a sequence of editor actions ended
by `Q`), folded over the stored program. -/
def applyEdits (prog : List GStep) : List EditOp → List GStep × List Ev
  | [] => (prog, [])
  | op :: ops =>
      let q := applyEdit prog op
      let r := applyEdits q.1 ops
      (r.1, q.2 ++ r.2)

/-- The `STATE_IDLE` command dispatch of `loop()` (the `switch` on the
first character of the line). -/
def processCmd (m : Machine) (c : Cmd) : Machine × List Ev :=
  match c with
  | Cmd.abortX => (m, [Ev.unknownCmd, Ev.menuShown])
  | Cmd.empty => (m, [Ev.menuShown])
  | Cmd.manual st =>
      (startStep { m with enabled := true, mstate := MState.movingManual } st,
       [Ev.outputsEnabled])
  | Cmd.progEdit ops =>
      let q := applyEdits m.program ops
      ({ m with program := q.1 }, q.2 ++ [Ev.menuShown])
  | Cmd.run =>
      if m.program.length = 0 then (m, [Ev.programEmpty, Ev.menuShown])
      else
        (startStep { m with progStepIndex := 0, enabled := true, mstate := MState.movingProg }
          (m.program.getD 0 dummyStep),
         [Ev.outputsEnabled])
  | Cmd.showProg => (m, [Ev.programShown, Ev.menuShown])
  | Cmd.clear => ({ m with program := [] }, [Ev.programCleared, Ev.menuShown])
  | Cmd.help => (m, [Ev.helpShown, Ev.menuShown])
  | Cmd.unknown => (m, [Ev.unknownCmd, Ev.menuShown])

/-- The motion-service block at the top of `loop()`: while a move is
active the firmware recomputes the commanded speed and calls
`runSpeed()`, which takes one step in the commanded direction exactly
when the step interval has elapsed (`stepDue`). -/
def serviceMotion (m : Machine) (stepDue : Bool) : Machine × List Ev :=
  if m.gMoving then
    if stepDue then
      ({ m with pos := m.pos + (if m.gFwd then 1 else -1) }, [Ev.stepTaken])
    else (m, [])
  else (m, [])

/-- The completion branch of `loop()` (`done == true`): stop the move,
de-energise the driver, then either finish a manual move, advance to the
next program step (re-energising the driver), or finish the program. -/
def finishMove (m1 : Machine) : Machine × List Ev :=
  let m2 : Machine := { m1 with gMoving := false, enabled := false }
  if m2.mstate = MState.movingManual then
    ({ m2 with mstate := MState.idle },
     [Ev.outputsDisabled, Ev.moveComplete, Ev.menuShown])
  else
    if m2.progStepIndex + 1 < m2.program.length then
      (startStep { m2 with progStepIndex := m2.progStepIndex + 1, enabled := true }
        (m2.program.getD (m2.progStepIndex + 1) dummyStep),
       [Ev.outputsDisabled, Ev.stepAdvanced (m2.progStepIndex + 2), Ev.outputsEnabled])
    else
      ({ m2 with progStepIndex := m2.progStepIndex + 1, mstate := MState.idle },
       [Ev.outputsDisabled, Ev.programComplete, Ev.menuShown])

/-- Everything `loop()` does after the motion-service block: while a
move is in flight, check `done = |position| ≥ target` and otherwise poll
the serial line for the abort character (any other line is read and
dropped); while idle, dispatch the pending command line, if any. -/
def tickCore (m1 : Machine) (line : Option Cmd) : Machine × List Ev :=
  if m1.mstate = MState.movingManual ∨ m1.mstate = MState.movingProg then
    if m1.gTargetDist ≤ |m1.pos| then
      finishMove m1
    else
      match line with
      | some Cmd.abortX =>
          ({ m1 with gMoving := false, mstate := MState.idle, enabled := false },
           [Ev.setSpeedZero, Ev.outputsDisabled, Ev.aborted, Ev.menuShown])
      | _ => (m1, [])
  else
    match line with
    | none => (m1, [])
    | some c => processCmd m1 c

/-- One full pass through `loop()`. -/
def tick (m : Machine) (inp : TickInput) : Machine × List Ev :=
  let mp := serviceMotion m inp.stepDue
  let q := tickCore mp.1 inp.line
  (q.1, mp.2 ++ q.2)

/-- Iterate `tick` over a list of inputs, collecting all events. -/
def ticks (m : Machine) : List TickInput → Machine × List Ev
  | [] => (m, [])
  | i :: is =>
      let p := tick m i
      let r := ticks p.1 is
      (r.1, p.2 ++ r.2)

/-- States reachable from reset by passes of `loop()`. -/
inductive Reachable : Machine → Prop
  | init : Reachable initMachine
  | step {m : Machine} (i : TickInput) : Reachable m → Reachable (tick m i).1

/-- A quiet tick: the step interval has elapsed and no serial input is
pending. -/
def quiet : TickInput := ⟨true, none⟩

/-- Whether a pending line would start a new move (`M` or `R`). -/
def startsMove : Option Cmd → Bool
  | some (Cmd.manual _) => true
  | some Cmd.run => true
  | _ => false

/-- Total distance of a list of program steps, in motor steps. -/
def sumDist (P : List GStep) : Nat := (P.map fun st => st.distance.toNat).sum

/-- The event a full program run is expected to produce at each move
completion, starting at program index `i` with `r` further steps stored
after the current one: a `stepAdvanced` (with the printed 1-based step
number) per intermediate completion, then `programComplete`. -/
def completionEvs : Nat → Nat → List Ev
  | _, 0 => [Ev.programComplete]
  | i, Nat.succ r => Ev.stepAdvanced (i + 2) :: completionEvs (i + 1) r

/-- The events that mark completion of one program step. -/
def isCompletion : Ev → Bool
  | Ev.stepAdvanced _ => true
  | Ev.programComplete => true
  | _ => false

/-- The `if (v2 < 0) v2 = 0;` clamp of `computeSpeed`. -/
noncomputable def clampSq (x : ℝ) : ℝ := if x < 0 then 0 else x

/-- `computeSpeed(long steps_done)` of the firmware, as a function of
the active-move globals `g_start_speed`, `g_end_speed`, `g_accel` (the
`float`s are modelled by reals): constant-speed early return, the
kinematic relation `v² = v₀² + 2·a·steps_done` floored at zero, the
clamp toward the end speed, and the final floor at 1 step/s. -/
noncomputable def computeSpeed (s e a : ℝ) (stepsDone : Nat) : ℝ :=
  if a = 0 ∨ s = e then s
  else
    max
      (if 0 < a then
        min (Real.sqrt (clampSq (s * s + 2 * a * (stepsDone : ℝ)))) e
      else
        max (Real.sqrt (clampSq (s * s + 2 * a * (stepsDone : ℝ)))) e)
      1

/-! ### Velocity-profile lemmas -/

theorem clampSq_eq_max (x : ℝ) : clampSq x = max x 0 := by
  unfold clampSq
  rcases lt_or_le x 0 with h | h
  · rw [if_pos h, max_eq_right h.le]
  · rw [if_neg (not_lt.mpr h), max_eq_left h]

/-- Claim C4: if `acceleration = 0` (and likewise whenever
`start_speed = end_speed`), the velocity profile returns `start_speed`
for every `steps_done` in `[0, distance_steps)`. -/
theorem C4_constant_speed_profile (s e a : ℝ) (d : Int) (h : a = 0 ∨ s = e) :
    ∀ n : Nat, (n : Int) < d → computeSpeed s e a n = s := by
  intro n _
  unfold computeSpeed
  rw [if_pos h]

theorem C4_witness :
    ((0 : ℝ) = 0 ∨ (7 : ℝ) = 7) ∧ ((2 : Int) < 100) ∧ computeSpeed 7 7 0 2 = 7 :=
  ⟨Or.inl rfl, by norm_num, C4_constant_speed_profile 7 7 0 100 (Or.inl rfl) 2 (by norm_num)⟩

/-- Claim C3: with `acceleration > 0` the speed sequence is
non-decreasing and never exceeds `end_speed`; with `acceleration < 0` it
is non-increasing and never drops below `max(end_speed, 1)`.  The
hypothesis `1 ≤ e` holds for every move the firmware starts: the console
validates speeds into `[1, 1000]` and `startStep` additionally floors
`g_end_speed` at 1. -/
theorem C3_profile_monotone_clamped (s e a : ℝ) (he : 1 ≤ e) :
    (0 < a → ∀ n m : Nat, n ≤ m →
      computeSpeed s e a n ≤ computeSpeed s e a m ∧ computeSpeed s e a m ≤ e)
    ∧ (a < 0 → ∀ n m : Nat, n ≤ m →
      computeSpeed s e a m ≤ computeSpeed s e a n ∧ max e 1 ≤ computeSpeed s e a m) := by
  constructor
  · intro ha n m hnm
    by_cases h : a = 0 ∨ s = e
    · have hse : s = e := h.resolve_left (ne_of_gt ha)
      simp only [computeSpeed, if_pos h]
      exact ⟨le_refl s, hse.le⟩
    · simp only [computeSpeed, if_neg h, if_pos ha]
      constructor
      · have hA : clampSq (s * s + 2 * a * (n : ℝ)) ≤ clampSq (s * s + 2 * a * (m : ℝ)) := by
          rw [clampSq_eq_max, clampSq_eq_max]
          refine max_le_max ?_ le_rfl
          have hc : (n : ℝ) ≤ (m : ℝ) := Nat.cast_le.mpr hnm
          nlinarith
        exact max_le_max (min_le_min (Real.sqrt_le_sqrt hA) le_rfl) le_rfl
      · exact max_le (min_le_right _ _) he
  · intro ha n m hnm
    by_cases h : a = 0 ∨ s = e
    · have hse : s = e := h.resolve_left (ne_of_lt ha)
      simp only [computeSpeed, if_pos h]
      refine ⟨le_refl s, ?_⟩
      rw [hse]
      exact max_le le_rfl he
    · simp only [computeSpeed, if_neg h, if_neg (not_lt.mpr ha.le)]
      constructor
      · have hA : clampSq (s * s + 2 * a * (m : ℝ)) ≤ clampSq (s * s + 2 * a * (n : ℝ)) := by
          rw [clampSq_eq_max, clampSq_eq_max]
          refine max_le_max ?_ le_rfl
          have hc : (n : ℝ) ≤ (m : ℝ) := Nat.cast_le.mpr hnm
          nlinarith
        exact max_le_max (max_le_max (Real.sqrt_le_sqrt hA) le_rfl) le_rfl
      · exact max_le_max (le_max_right _ _) le_rfl

theorem C3_witness :
    (1 : ℝ) ≤ 3 ∧
      computeSpeed 2 3 1 0 ≤ computeSpeed 2 3 1 4 ∧ computeSpeed 2 3 1 4 ≤ 3 := by
  have h := (C3_profile_monotone_clamped 2 3 1 (by norm_num)).1 (by norm_num) 0 4 (by norm_num)
  exact ⟨by norm_num, h.1, h.2⟩

/-- Claim C10: with `acceleration > 0` and `end_speed < start_speed`,
the upward clamp `v = min(v, g_end_speed)` caps the profile at
`end_speed` from the very first step, so the move never runs at
`start_speed`.  The hypothesis `1 ≤ e` is established by `startStep`. -/
theorem C10_upward_clamp_caps_immediately (s e a : ℝ)
    (he : 1 ≤ e) (hes : e < s) (ha : 0 < a) :
    ∀ n : Nat, computeSpeed s e a n = e := by
  intro n
  have h : ¬(a = 0 ∨ s = e) := by
    rintro (h0 | h1)
    · exact ne_of_gt ha h0
    · exact ne_of_gt hes h1
  simp only [computeSpeed, if_neg h, if_pos ha]
  have hn0 : (0 : ℝ) ≤ (n : ℝ) := Nat.cast_nonneg n
  have hs0 : (0 : ℝ) ≤ s := by nlinarith
  have hA : clampSq (s * s + 2 * a * (n : ℝ)) = s * s + 2 * a * (n : ℝ) := by
    rw [clampSq_eq_max]
    apply max_eq_left
    nlinarith
  rw [hA]
  have hsqrt : s ≤ Real.sqrt (s * s + 2 * a * (n : ℝ)) := by
    calc s = Real.sqrt (s * s) := (Real.sqrt_mul_self hs0).symm
    _ ≤ _ := Real.sqrt_le_sqrt (by nlinarith)
  rw [min_eq_right (le_trans hes.le hsqrt)]
  exact max_eq_left he

theorem C10_witness :
    (1 : ℝ) ≤ 2 ∧ (2 : ℝ) < 3 ∧ (0 : ℝ) < 1 ∧ computeSpeed 3 2 1 5 = 2 :=
  ⟨by norm_num, by norm_num, by norm_num,
    C10_upward_clamp_caps_immediately 3 2 1 (by norm_num) (by norm_num) (by norm_num) 5⟩

/-! ### Machine lemmas: single-tick scenarios -/

/-- Stepper position after `k` steps of a move in direction `f`. -/
def dirPos (f : Bool) (k : Nat) : Int := if f then (k : Int) else -(k : Int)

theorem dirPos_step (f : Bool) (k : Nat) :
    dirPos f k + (if f then 1 else -1) = dirPos f (k + 1) := by
  cases f
  · simp [dirPos]
    omega
  · simp [dirPos]

theorem abs_dirPos (f : Bool) (k : Nat) : |dirPos f k| = (k : Int) := by
  cases f <;> simp [dirPos, abs_of_nonneg]

theorem serviceMotion_eq (m : Machine) (d : Bool) :
    serviceMotion m d =
      if m.gMoving = true ∧ d = true then
        ({ m with pos := m.pos + (if m.gFwd then 1 else -1) }, [Ev.stepTaken])
      else (m, []) := by
  cases hm : m.gMoving <;> cases hd : d <;> simp [serviceMotion, hm, hd]

/-- A quiet tick mid-move that does not yet reach the target: one step,
no other effect. -/
theorem tick_moving_quiet_step (m : Machine) (k : Nat)
    (hst : m.mstate = MState.movingManual ∨ m.mstate = MState.movingProg)
    (hmv : m.gMoving = true)
    (hpos : m.pos = dirPos m.gFwd k)
    (hnd : (k : Int) + 1 < m.gTargetDist) :
    tick m quiet = ({ m with pos := dirPos m.gFwd (k + 1) }, [Ev.stepTaken]) := by
  have habs : |dirPos m.gFwd (k + 1)| = ((k + 1 : Nat) : Int) := abs_dirPos _ _
  have hnd' : ¬ m.gTargetDist ≤ (k : Int) + 1 := not_le.mpr hnd
  simp only [tick, quiet, serviceMotion_eq, hmv, and_self, if_true, tickCore,
    hpos, dirPos_step]
  rcases hst with h | h <;>
    simp [h, habs, hnd']

/-- The completion tick of a manual move: final step, driver disabled,
`MoveComplete`, back to idle. -/
theorem tick_manual_done (m : Machine) (k : Nat)
    (hst : m.mstate = MState.movingManual)
    (hmv : m.gMoving = true)
    (hpos : m.pos = dirPos m.gFwd k)
    (htg : m.gTargetDist ≤ (k : Int) + 1) :
    tick m quiet =
      ({ m with
          pos := dirPos m.gFwd (k + 1)
          gMoving := false
          enabled := false
          mstate := MState.idle },
       [Ev.stepTaken, Ev.outputsDisabled, Ev.moveComplete, Ev.menuShown]) := by
  have habs : |dirPos m.gFwd (k + 1)| = ((k + 1 : Nat) : Int) := abs_dirPos _ _
  have htg' : m.gTargetDist ≤ (k : Int) + 1 := htg
  simp [tick, quiet, serviceMotion_eq, hmv, tickCore, hpos, dirPos_step, hst,
    habs, htg', finishMove]

/-- The completion tick of a program step with further steps stored:
the driver is disabled then re-enabled, the next step is started, the
step-advance message is printed, and the machine stays in
`STATE_MOVING_PROG`. -/
theorem tick_prog_done_advance (m : Machine) (k : Nat)
    (hst : m.mstate = MState.movingProg)
    (hmv : m.gMoving = true)
    (hpos : m.pos = dirPos m.gFwd k)
    (htg : m.gTargetDist ≤ (k : Int) + 1)
    (hlt : m.progStepIndex + 1 < m.program.length) :
    tick m quiet =
      (startStep
        { m with
            pos := dirPos m.gFwd (k + 1)
            progStepIndex := m.progStepIndex + 1
            enabled := true }
        (m.program.getD (m.progStepIndex + 1) dummyStep),
       [Ev.stepTaken, Ev.outputsDisabled, Ev.stepAdvanced (m.progStepIndex + 2),
        Ev.outputsEnabled]) := by
  have habs : |dirPos m.gFwd (k + 1)| = ((k + 1 : Nat) : Int) := abs_dirPos _ _
  have htg' : m.gTargetDist ≤ (k : Int) + 1 := htg
  simp [tick, quiet, serviceMotion_eq, hmv, tickCore, hpos, dirPos_step, hst,
    habs, htg', finishMove, hlt, startStep]

/-- The completion tick of the last program step: driver disabled,
`ProgramComplete`, back to idle. -/
theorem tick_prog_done_complete (m : Machine) (k : Nat)
    (hst : m.mstate = MState.movingProg)
    (hmv : m.gMoving = true)
    (hpos : m.pos = dirPos m.gFwd k)
    (htg : m.gTargetDist ≤ (k : Int) + 1)
    (hge : ¬ m.progStepIndex + 1 < m.program.length) :
    tick m quiet =
      ({ m with
          pos := dirPos m.gFwd (k + 1)
          gMoving := false
          enabled := false
          progStepIndex := m.progStepIndex + 1
          mstate := MState.idle },
       [Ev.stepTaken, Ev.outputsDisabled, Ev.programComplete, Ev.menuShown]) := by
  have habs : |dirPos m.gFwd (k + 1)| = ((k + 1 : Nat) : Int) := abs_dirPos _ _
  have htg' : m.gTargetDist ≤ (k : Int) + 1 := htg
  simp [tick, quiet, serviceMotion_eq, hmv, tickCore, hpos, dirPos_step, hst,
    habs, htg', finishMove, hge]

/-! ### Machine lemmas: multi-tick runs -/

theorem ticks_append (m : Machine) (l1 l2 : List TickInput) :
    ticks m (l1 ++ l2) =
      ((ticks (ticks m l1).1 l2).1, (ticks m l1).2 ++ (ticks (ticks m l1).1 l2).2) := by
  induction l1 generalizing m with
  | nil => simp [ticks]
  | cons i is ih => simp [ticks, ih, List.append_assoc]

/-- Repetition of `tick_moving_quiet_step`: `j` quiet ticks inside a
move that stays short of the target advance the position by `j` and do
nothing else. -/
theorem ticks_moving_partial (j : Nat) : ∀ (m : Machine) (k : Nat),
    (m.mstate = MState.movingManual ∨ m.mstate = MState.movingProg) →
    m.gMoving = true →
    m.pos = dirPos m.gFwd k →
    (k : Int) + (j : Int) < m.gTargetDist →
    ticks m (List.replicate j quiet) =
      ({ m with pos := dirPos m.gFwd (k + j) }, List.replicate j Ev.stepTaken) := by
  induction j with
  | zero =>
    intro m k hst hmv hpos hlt
    simp only [List.replicate, ticks, Nat.add_zero]
    rw [← hpos]
  | succ j ih =>
    intro m k hst hmv hpos hlt
    have h1 : (k : Int) + 1 < m.gTargetDist := by
      push_cast at hlt
      omega
    rw [List.replicate_succ]
    have hrec : ticks m (quiet :: List.replicate j quiet) =
        ((ticks (tick m quiet).1 (List.replicate j quiet)).1,
         (tick m quiet).2 ++ (ticks (tick m quiet).1 (List.replicate j quiet)).2) := rfl
    rw [hrec, tick_moving_quiet_step m k hst hmv hpos h1]
    have h2 : ((k + 1 : Nat) : Int) + (j : Int) <
        ({ m with pos := dirPos m.gFwd (k + 1) } : Machine).gTargetDist := by
      show ((k + 1 : Nat) : Int) + (j : Int) < m.gTargetDist
      push_cast at hlt ⊢
      omega
    rw [ih { m with pos := dirPos m.gFwd (k + 1) } (k + 1) hst hmv rfl h2]
    rw [show k + 1 + j = k + (j + 1) from by omega]
    rfl

/-- A manual move of `j + 1` steps, run to completion on quiet ticks:
one step per tick, and on the final tick the driver is disabled, the
completion message is printed and the machine returns to idle. -/
theorem ticks_manual_run (m : Machine) (j : Nat)
    (hst : m.mstate = MState.movingManual)
    (hmv : m.gMoving = true)
    (hpos : m.pos = dirPos m.gFwd 0)
    (htg : m.gTargetDist = (j : Int) + 1) :
    ticks m (List.replicate (j + 1) quiet) =
      ({ m with
          pos := dirPos m.gFwd (j + 1)
          gMoving := false
          enabled := false
          mstate := MState.idle },
       List.replicate (j + 1) Ev.stepTaken ++
         [Ev.outputsDisabled, Ev.moveComplete, Ev.menuShown]) := by
  rw [List.replicate_succ']
  rw [ticks_append]
  have hpart := ticks_moving_partial j m 0 (Or.inl hst) hmv hpos (by omega)
  rw [hpart]
  have hdone := tick_manual_done { m with pos := dirPos m.gFwd (0 + j) } j hst hmv
    (by show dirPos m.gFwd (0 + j) = dirPos m.gFwd j; rw [Nat.zero_add])
    (by show m.gTargetDist ≤ (j : Int) + 1; omega)
  have hone : ticks ({ m with pos := dirPos m.gFwd (0 + j) } : Machine) [quiet] =
      ((tick { m with pos := dirPos m.gFwd (0 + j) } quiet).1,
       (tick { m with pos := dirPos m.gFwd (0 + j) } quiet).2 ++ []) := rfl
  rw [hone, hdone]
  rw [List.replicate_succ', List.append_assoc]
  rfl

theorem dirPos_zero (f : Bool) : dirPos f 0 = 0 := by
  cases f <;> simp [dirPos]

theorem drop_getD_cons (l : List GStep) : ∀ i, i < l.length →
    l.drop i = l.getD i dummyStep :: l.drop (i + 1) := by
  induction l with
  | nil =>
    intro i h
    simp at h
  | cons a t ih =>
    intro i h
    cases i with
    | zero => rfl
    | succ i =>
      rw [List.drop_succ_cons, List.getD_cons_succ, List.drop_succ_cons,
        ih i (by simpa using h)]

theorem sumDist_cons (st : GStep) (l : List GStep) :
    sumDist (st :: l) = st.distance.toNat + sumDist l := by
  simp [sumDist]

/-- A stored program, run to completion on quiet ticks from any point
inside it: the machine ends idle with the driver de-energised, and the
completion events are exactly one `stepAdvanced` per remaining
intermediate step followed by one `programComplete`. -/
theorem ticks_prog_run (fuel : Nat) : ∀ (m : Machine) (k : Nat),
    m.mstate = MState.movingProg →
    m.gMoving = true →
    m.progStepIndex < m.program.length →
    m.pos = dirPos m.gFwd k →
    m.gTargetDist = (m.program.getD m.progStepIndex dummyStep).distance →
    (k : Int) < m.gTargetDist →
    (∀ st ∈ m.program.drop (m.progStepIndex + 1), 1 ≤ st.distance) →
    fuel = (m.gTargetDist.toNat - k) + sumDist (m.program.drop (m.progStepIndex + 1)) →
    (ticks m (List.replicate fuel quiet)).1.mstate = MState.idle ∧
    (ticks m (List.replicate fuel quiet)).1.gMoving = false ∧
    (ticks m (List.replicate fuel quiet)).1.enabled = false ∧
    (ticks m (List.replicate fuel quiet)).2.filter isCompletion =
      completionEvs m.progStepIndex (m.program.length - (m.progStepIndex + 1)) := by
  induction fuel with
  | zero =>
    intro m k _ _ _ _ _ hk _ hfuel
    exfalso
    omega
  | succ fuel ih =>
    intro m k hst hmv hidx hpos htg hk hdist hfuel
    rw [List.replicate_succ]
    have hrec : ticks m (quiet :: List.replicate fuel quiet) =
        ((ticks (tick m quiet).1 (List.replicate fuel quiet)).1,
         (tick m quiet).2 ++ (ticks (tick m quiet).1 (List.replicate fuel quiet)).2) := rfl
    rw [hrec]
    by_cases hdone : m.gTargetDist ≤ (k : Int) + 1
    · by_cases hlt : m.progStepIndex + 1 < m.program.length
      · -- completion tick, further steps stored: advance
        rw [tick_prog_done_advance m k hst hmv hpos hdone hlt]
        have hdrop := drop_getD_cons m.program (m.progStepIndex + 1) hlt
        have hmem : m.program.getD (m.progStepIndex + 1) dummyStep ∈
            m.program.drop (m.progStepIndex + 1) := by
          rw [hdrop]
          exact List.mem_cons_self _ _
        have hd1 : 1 ≤ (m.program.getD (m.progStepIndex + 1) dummyStep).distance :=
          hdist _ hmem
        have hsum : sumDist (m.program.drop (m.progStepIndex + 1)) =
            (m.program.getD (m.progStepIndex + 1) dummyStep).distance.toNat +
              sumDist (m.program.drop (m.progStepIndex + 2)) := by
          rw [hdrop, sumDist_cons]
        have hih := ih
          (startStep
            { m with
                pos := dirPos m.gFwd (k + 1)
                progStepIndex := m.progStepIndex + 1
                enabled := true }
            (m.program.getD (m.progStepIndex + 1) dummyStep)) 0
          hst rfl hlt ((dirPos_zero _).symm) rfl
          (by
            show (0 : Int) < (m.program.getD (m.progStepIndex + 1) dummyStep).distance
            omega)
          (fun st hm => hdist st (by rw [hdrop]; exact List.mem_cons_of_mem _ hm))
          (by
            show fuel = ((m.program.getD (m.progStepIndex + 1) dummyStep).distance.toNat - 0) +
              sumDist (m.program.drop (m.progStepIndex + 2))
            omega)
        refine ⟨hih.1, hih.2.1, hih.2.2.1, ?_⟩
        rw [List.filter_append, hih.2.2.2]
        have hNi : m.program.length - (m.progStepIndex + 1) =
            (m.program.length - (m.progStepIndex + 1 + 1)) + 1 := by omega
        rw [hNi]
        rfl
      · -- completion tick of the last step: program complete
        rw [tick_prog_done_complete m k hst hmv hpos hdone hlt]
        have hdropnil : m.program.drop (m.progStepIndex + 1) = [] :=
          List.drop_eq_nil_of_le (by omega)
        have hS : sumDist (m.program.drop (m.progStepIndex + 1)) = 0 := by
          rw [hdropnil]
          rfl
        have hf0 : fuel = 0 := by omega
        subst hf0
        have hN0 : m.program.length - (m.progStepIndex + 1) = 0 := by omega
        rw [hN0]
        simp [ticks, isCompletion, completionEvs]
    · -- ordinary mid-move tick
      have h1 : (k : Int) + 1 < m.gTargetDist := by omega
      rw [tick_moving_quiet_step m k (Or.inr hst) hmv hpos h1]
      have hih := ih { m with pos := dirPos m.gFwd (k + 1) } (k + 1)
        hst hmv hidx rfl htg (by push_cast; omega) hdist
        (by
          show fuel = (m.gTargetDist.toNat - (k + 1)) +
            sumDist (m.program.drop (m.progStepIndex + 1))
          omega)
      refine ⟨hih.1, hih.2.1, hih.2.2.1, ?_⟩
      rw [List.filter_append, hih.2.2.2]
      simp [isCompletion]

/-! ### The scenario spec {Forward, distance=100, start=10, end=50, accel=5} -/

theorem computeSpeed_demo (n : Nat) :
    computeSpeed 10 50 5 n = max (min (Real.sqrt (100 + 10 * (n : ℝ))) 50) 1 := by
  have h : ¬((5 : ℝ) = 0 ∨ (10 : ℝ) = 50) := by norm_num
  have h0 : (0 : ℝ) ≤ 100 + 10 * (n : ℝ) := by positivity
  simp only [computeSpeed, if_neg h, if_pos (show (0 : ℝ) < 5 by norm_num)]
  rw [clampSq_eq_max,
    show (10 : ℝ) * 10 + 2 * 5 * (n : ℝ) = 100 + 10 * (n : ℝ) by ring,
    max_eq_left h0]

theorem sqrt_100 : Real.sqrt 100 = 10 := by
  rw [show (100 : ℝ) = 10 * 10 by norm_num,
    Real.sqrt_mul_self (by norm_num : (0 : ℝ) ≤ 10)]

theorem sqrt_2500 : Real.sqrt 2500 = 50 := by
  rw [show (2500 : ℝ) = 50 * 50 by norm_num,
    Real.sqrt_mul_self (by norm_num : (0 : ℝ) ≤ 50)]

theorem sqrt_1700_lt_50 : Real.sqrt 1700 < 50 := by
  rw [← sqrt_2500]
  exact Real.sqrt_lt_sqrt (by norm_num) (by norm_num)

theorem one_le_sqrt_1700 : (1 : ℝ) ≤ Real.sqrt 1700 := by
  rw [← Real.sqrt_one]
  exact Real.sqrt_le_sqrt (by norm_num)

theorem computeSpeed_demo_zero : computeSpeed 10 50 5 0 = 10 := by
  rw [computeSpeed_demo]
  rw [show (100 : ℝ) + 10 * ((0 : Nat) : ℝ) = 100 by norm_num, sqrt_100]
  rw [min_eq_left (by norm_num), max_eq_left (by norm_num)]

theorem computeSpeed_demo_160 : computeSpeed 10 50 5 160 = Real.sqrt 1700 := by
  rw [computeSpeed_demo]
  rw [show (100 : ℝ) + 10 * ((160 : Nat) : ℝ) = 1700 by norm_num]
  rw [min_eq_left sqrt_1700_lt_50.le, max_eq_left one_le_sqrt_1700]

theorem computeSpeed_demo_clamped (n : Nat) (h : 240 ≤ n) :
    computeSpeed 10 50 5 n = 50 := by
  rw [computeSpeed_demo]
  have hn : (240 : ℝ) ≤ (n : ℝ) := by exact_mod_cast h
  have h50 : (50 : ℝ) ≤ Real.sqrt (100 + 10 * (n : ℝ)) := by
    rw [← sqrt_2500]
    exact Real.sqrt_le_sqrt (by nlinarith)
  rw [min_eq_right h50, max_eq_left (by norm_num)]

/-- The scenario spec of the specification's §8:
`{Forward, distance=100, start=10, end=50, accel=5}`. -/
def demoSpec : GStep := ⟨true, 100, 10, 50, 5⟩

/-- The machine right after the manual-move command for `demoSpec` is
processed from reset. -/
def demoStart : Machine := (processCmd initMachine (Cmd.manual demoSpec)).1

/-- Claim C5, counterexample: for the scenario spec
`{Forward, distance=100, start=10, end=50, accel=5}` the profile at
`steps_done = 160` does NOT return 50: `v² = 10² + 2·5·160 = 1700`
(the spec's `3300` is an arithmetic slip), and `√1700 ≈ 41.2 < 50`, so
the end-speed clamp is not yet active there. -/
theorem C5_counterexample : computeSpeed 10 50 5 160 ≠ 50 := by
  rw [computeSpeed_demo_160]
  exact ne_of_lt sqrt_1700_lt_50

/-- Claim C5, amended: for the scenario spec the profile at
`steps_done = 0` returns 10; at `steps_done = 160` it returns
`√1700 ≈ 41.2`, still strictly below 50 (the clamp to exactly 50 holds
from `steps_done = 240` onward); and the executor reports `done = true`
exactly when `steps_done` reaches 100, regardless of the speed path
(quiet ticks, one step each). -/
theorem C5_amended_scenario :
    computeSpeed 10 50 5 0 = 10 ∧
    computeSpeed 10 50 5 160 = Real.sqrt 1700 ∧
    Real.sqrt 1700 < 50 ∧
    (∀ n : Nat, 240 ≤ n → computeSpeed 10 50 5 n = 50) ∧
    (∀ k : Nat, k < 100 →
      (ticks demoStart (List.replicate k quiet)).1.mstate = MState.movingManual ∧
      Ev.moveComplete ∉ (ticks demoStart (List.replicate k quiet)).2) ∧
    (ticks demoStart (List.replicate 100 quiet)).1.mstate = MState.idle ∧
    Ev.moveComplete ∈ (ticks demoStart (List.replicate 100 quiet)).2 := by
  refine ⟨computeSpeed_demo_zero, computeSpeed_demo_160, sqrt_1700_lt_50,
    computeSpeed_demo_clamped, ?_, ?_, ?_⟩
  · intro k hk
    have hp := ticks_moving_partial k demoStart 0 (Or.inl rfl) rfl rfl
      (by show (0 : Int) + (k : Int) < (100 : Int); omega)
    rw [hp]
    refine ⟨rfl, fun hmem => ?_⟩
    exact absurd (List.eq_of_mem_replicate hmem) (by decide)
  · have hr := ticks_manual_run demoStart 99 rfl rfl rfl
      (show (100 : Int) = (99 : Int) + 1 by norm_num)
    rw [hr]
  · have hr := ticks_manual_run demoStart 99 rfl rfl rfl
      (show (100 : Int) = (99 : Int) + 1 by norm_num)
    rw [hr]
    simp

theorem C5_witness :
    computeSpeed 10 50 5 240 = 50 ∧
    (ticks demoStart (List.replicate 5 quiet)).1.mstate = MState.movingManual :=
  ⟨C5_amended_scenario.2.2.2.1 240 (by decide),
   (C5_amended_scenario.2.2.2.2.1 5 (by decide)).1⟩

/-! ### Equation lemmas and projection lemmas -/

theorem tick_eq (m : Machine) (i : TickInput) :
    tick m i = ((tickCore (serviceMotion m i.stepDue).1 i.line).1,
      (serviceMotion m i.stepDue).2 ++ (tickCore (serviceMotion m i.stepDue).1 i.line).2) := rfl

theorem finishMove_eq (m1 : Machine) :
    finishMove m1 =
      if m1.mstate = MState.movingManual then
        ({ m1 with gMoving := false, enabled := false, mstate := MState.idle },
         [Ev.outputsDisabled, Ev.moveComplete, Ev.menuShown])
      else if m1.progStepIndex + 1 < m1.program.length then
        (startStep
          { m1 with gMoving := false, progStepIndex := m1.progStepIndex + 1, enabled := true }
          (m1.program.getD (m1.progStepIndex + 1) dummyStep),
         [Ev.outputsDisabled, Ev.stepAdvanced (m1.progStepIndex + 2), Ev.outputsEnabled])
      else
        ({ m1 with
            gMoving := false
            enabled := false
            progStepIndex := m1.progStepIndex + 1
            mstate := MState.idle },
         [Ev.outputsDisabled, Ev.programComplete, Ev.menuShown]) := rfl

theorem applyEdits_cons (prog : List GStep) (op : EditOp) (ops : List EditOp) :
    applyEdits prog (op :: ops) =
      ((applyEdits (applyEdit prog op).1 ops).1,
       (applyEdit prog op).2 ++ (applyEdits (applyEdit prog op).1 ops).2) := rfl

theorem serviceMotion_mstate (m : Machine) (d : Bool) :
    (serviceMotion m d).1.mstate = m.mstate := by
  rw [serviceMotion_eq]
  split <;> rfl

theorem serviceMotion_program (m : Machine) (d : Bool) :
    (serviceMotion m d).1.program = m.program := by
  rw [serviceMotion_eq]
  split <;> rfl

theorem serviceMotion_gTargetDist (m : Machine) (d : Bool) :
    (serviceMotion m d).1.gTargetDist = m.gTargetDist := by
  rw [serviceMotion_eq]
  split <;> rfl

theorem serviceMotion_gMoving (m : Machine) (d : Bool) :
    (serviceMotion m d).1.gMoving = m.gMoving := by
  rw [serviceMotion_eq]
  split <;> rfl

/-! ### Events of the idle command dispatch -/

theorem applyEdit_events (prog : List GStep) (op : EditOp) :
    (applyEdit prog op).2 = [Ev.programFull] ∨ (applyEdit prog op).2 = [Ev.stepAdded] ∨
    (applyEdit prog op).2 = [Ev.invalidStepNumber] ∨
    (applyEdit prog op).2 = [Ev.stepDeleted] ∨
    (applyEdit prog op).2 = [Ev.editUsageShown] := by
  cases op with
  | add st =>
    simp only [applyEdit]
    split <;> simp
  | del n =>
    simp only [applyEdit]
    split <;> simp
  | other => simp [applyEdit]

theorem applyEdits_no_stepTaken (ops : List EditOp) : ∀ (prog : List GStep),
    Ev.stepTaken ∉ (applyEdits prog ops).2 := by
  induction ops with
  | nil =>
    intro prog
    simp [applyEdits]
  | cons op ops ih =>
    intro prog hmem
    rw [applyEdits_cons] at hmem
    rcases List.mem_append.mp hmem with h | h
    · rcases applyEdit_events prog op with h5 | h5 | h5 | h5 | h5 <;> rw [h5] at h <;> simp at h
    · exact ih _ h

theorem processCmd_no_stepTaken (m : Machine) (c : Cmd) :
    Ev.stepTaken ∉ (processCmd m c).2 := by
  cases c with
  | progEdit ops =>
    intro hmem
    simp only [processCmd] at hmem
    rcases List.mem_append.mp hmem with h | h
    · exact applyEdits_no_stepTaken ops m.program h
    · simp at h
  | run =>
    by_cases h : m.program.length = 0 <;> simp [processCmd, h]
  | _ => simp [processCmd]

/-! ### Mid-move serial handling -/

/-- Any serial line other than `"X"` arriving mid-move (on a tick that
does not complete the move) is read and dropped: no state change beyond
the motion service, and no output. -/
theorem tickCore_moving_ignores (m1 : Machine) (c : Cmd)
    (hst : m1.mstate = MState.movingManual ∨ m1.mstate = MState.movingProg)
    (hnd : ¬ m1.gTargetDist ≤ |m1.pos|)
    (hc : c ≠ Cmd.abortX) :
    tickCore m1 (some c) = (m1, []) := by
  unfold tickCore
  rw [if_pos hst, if_neg hnd]
  cases c <;> first | rfl | exact absurd rfl hc

theorem tick_moving_ignores_line (m : Machine) (d : Bool) (c : Cmd)
    (hst : m.mstate = MState.movingManual ∨ m.mstate = MState.movingProg)
    (hnd : |(serviceMotion m d).1.pos| < m.gTargetDist)
    (hc : c ≠ Cmd.abortX) :
    tick m ⟨d, some c⟩ = ((serviceMotion m d).1, (serviceMotion m d).2) := by
  have h1 := tickCore_moving_ignores (serviceMotion m d).1 c
    (by rw [serviceMotion_mstate]; exact hst)
    (by rw [serviceMotion_gTargetDist]; exact not_le.mpr hnd)
    hc
  rw [tick_eq]
  rw [show (⟨d, some c⟩ : TickInput).stepDue = d from rfl,
    show (⟨d, some c⟩ : TickInput).line = some c from rfl, h1, List.append_nil]

/-- The abort line `"X"` arriving mid-move (on a tick that does not
complete the move): speed zeroed, driver disabled, `Aborted`, idle. -/
theorem tick_moving_abort (m : Machine) (d : Bool)
    (hst : m.mstate = MState.movingManual ∨ m.mstate = MState.movingProg)
    (hnd : |(serviceMotion m d).1.pos| < m.gTargetDist) :
    tick m ⟨d, some Cmd.abortX⟩ =
      ({ (serviceMotion m d).1 with gMoving := false, mstate := MState.idle, enabled := false },
       (serviceMotion m d).2 ++
         [Ev.setSpeedZero, Ev.outputsDisabled, Ev.aborted, Ev.menuShown]) := by
  have h1 : tickCore (serviceMotion m d).1 (some Cmd.abortX) =
      ({ (serviceMotion m d).1 with gMoving := false, mstate := MState.idle, enabled := false },
       [Ev.setSpeedZero, Ev.outputsDisabled, Ev.aborted, Ev.menuShown]) := by
    unfold tickCore
    rw [if_pos (by rw [serviceMotion_mstate]; exact hst),
      if_neg (by rw [serviceMotion_gTargetDist]; exact not_le.mpr hnd)]
  rw [tick_eq]
  rw [show (⟨d, some Cmd.abortX⟩ : TickInput).stepDue = d from rfl,
    show (⟨d, some Cmd.abortX⟩ : TickInput).line = some Cmd.abortX from rfl, h1]

/-! ### Idle ticks -/

/-- An idle tick with no active move: no step is ever requested, and as
long as the line does not start a new move (`M`/`R`) the machine stays
idle with no active move. -/
theorem tick_idle (m : Machine) (i : TickInput)
    (h1 : m.mstate = MState.idle) (h2 : m.gMoving = false) :
    Ev.stepTaken ∉ (tick m i).2 ∧
    (startsMove i.line = false →
      (tick m i).1.mstate = MState.idle ∧ (tick m i).1.gMoving = false) := by
  have hsm : serviceMotion m i.stepDue = (m, []) := by
    rw [serviceMotion_eq]
    simp [h2]
  have hnot : ¬ (m.mstate = MState.movingManual ∨ m.mstate = MState.movingProg) := by
    rw [h1]
    rintro (h | h) <;> cases h
  rw [tick_eq, hsm]
  show Ev.stepTaken ∉ [] ++ (tickCore m i.line).2 ∧ _
  unfold tickCore
  rw [if_neg hnot]
  cases hl : i.line with
  | none =>
    exact ⟨by simp, fun _ => ⟨h1, h2⟩⟩
  | some c =>
    rw [List.nil_append]
    refine ⟨processCmd_no_stepTaken m c, fun hsv => ?_⟩
    cases c with
    | manual st => exact absurd hsv (by simp [startsMove])
    | run => exact absurd hsv (by simp [startsMove])
    | progEdit ops => exact ⟨h1, h2⟩
    | abortX => exact ⟨h1, h2⟩
    | showProg => exact ⟨h1, h2⟩
    | clear => exact ⟨h1, h2⟩
    | help => exact ⟨h1, h2⟩
    | empty => exact ⟨h1, h2⟩
    | unknown => exact ⟨h1, h2⟩

/-- Iterated version of `tick_idle`: from idle with no active move, a
whole input sequence free of move commands requests no step. -/
theorem ticks_idle_no_step (inps : List TickInput) : ∀ (m : Machine),
    m.mstate = MState.idle → m.gMoving = false →
    (∀ i ∈ inps, startsMove i.line = false) →
    (ticks m inps).1.mstate = MState.idle ∧
    (ticks m inps).1.gMoving = false ∧
    Ev.stepTaken ∉ (ticks m inps).2 := by
  induction inps with
  | nil =>
    intro m hm1 hm2 _
    exact ⟨hm1, hm2, by simp [ticks]⟩
  | cons i is ih =>
    intro m hm1 hm2 hq
    have hone := tick_idle m i hm1 hm2
    have hnext := hone.2 (hq i (List.mem_cons_self _ _))
    have hrest := ih (tick m i).1 hnext.1 hnext.2
      (fun j hj => hq j (List.mem_cons_of_mem _ hj))
    have hrec : ticks m (i :: is) =
        ((ticks (tick m i).1 is).1, (tick m i).2 ++ (ticks (tick m i).1 is).2) := rfl
    rw [hrec]
    refine ⟨hrest.1, hrest.2.1, fun hmem => ?_⟩
    rcases List.mem_append.mp hmem with h | h
    · exact hone.1 h
    · exact hrest.2.2 h

/-! ### The idle invariant (C9) -/

/-- One pass of `loop()` preserves the invariant
`STATE_IDLE → !g_moving`. -/
theorem tick_preserves_idleInv (m : Machine) (i : TickInput)
    (h : m.mstate = MState.idle → m.gMoving = false) :
    (tick m i).1.mstate = MState.idle → (tick m i).1.gMoving = false := by
  rw [tick_eq]
  by_cases hmv : (serviceMotion m i.stepDue).1.mstate = MState.movingManual ∨
      (serviceMotion m i.stepDue).1.mstate = MState.movingProg
  · unfold tickCore
    rw [if_pos hmv]
    by_cases hdone : (serviceMotion m i.stepDue).1.gTargetDist ≤
        |(serviceMotion m i.stepDue).1.pos|
    · rw [if_pos hdone, finishMove_eq]
      split
      · intro _
        rfl
      · split
        · intro hidle
          have h' : (serviceMotion m i.stepDue).1.mstate = MState.idle := hidle
          rcases hmv with h1 | h1 <;> rw [h'] at h1 <;> cases h1
        · intro _
          rfl
    · rw [if_neg hdone]
      cases hl : i.line with
      | none =>
        intro hidle
        have h' : (serviceMotion m i.stepDue).1.mstate = MState.idle := hidle
        rcases hmv with h1 | h1 <;> rw [h'] at h1 <;> cases h1
      | some c =>
        cases c with
        | abortX =>
          intro _
          rfl
        | _ =>
          intro hidle
          have h' : (serviceMotion m i.stepDue).1.mstate = MState.idle := hidle
          rcases hmv with h1 | h1 <;> rw [h'] at h1 <;> cases h1
  · have hms : m.mstate = MState.idle := by
      cases h3 : m.mstate with
      | idle => rfl
      | movingManual => exact absurd (Or.inl (by rw [serviceMotion_mstate, h3])) hmv
      | movingProg => exact absurd (Or.inr (by rw [serviceMotion_mstate, h3])) hmv
    have h2 : m.gMoving = false := h hms
    have hsm : serviceMotion m i.stepDue = (m, []) := by
      rw [serviceMotion_eq]
      simp [h2]
    rw [hsm]
    show (tickCore m i.line).1.mstate = MState.idle → (tickCore m i.line).1.gMoving = false
    have hnot : ¬ (m.mstate = MState.movingManual ∨ m.mstate = MState.movingProg) := by
      rw [hms]
      rintro (h' | h') <;> cases h'
    unfold tickCore
    rw [if_neg hnot]
    cases i.line with
    | none => exact fun _ => h2
    | some c =>
      cases c with
      | manual st =>
        intro hidle
        simp [processCmd, startStep] at hidle
      | run =>
        simp only [processCmd]
        split
        · exact fun _ => h2
        · intro hidle
          simp [startStep] at hidle
      | _ => exact fun _ => h2

/-! ### Claims C1, C2, C9 -/

/-- Claim C1, counterexample: a program-edit request (here `P` with an
`A` add) arriving mid-manual-move is NOT rejected with a Busy error —
the firmware reads and silently drops the line, emitting nothing at all
(and, in particular, no `Rejected(Busy)` event, which the firmware has
no code to produce).  The program store is indeed left unchanged. -/
theorem C1_counterexample :
    Ev.rejectedBusy ∉
      (tick demoStart ⟨false, some (Cmd.progEdit [EditOp.add dummyStep])⟩).2 ∧
    (tick demoStart ⟨false, some (Cmd.progEdit [EditOp.add dummyStep])⟩).1.program =
      demoStart.program ∧
    (tick demoStart ⟨false, some (Cmd.progEdit [EditOp.add dummyStep])⟩).2 = [] := by
  decide

/-- Claim C1, amended: on every tick processed while the session is in
`RunningManual` or `RunningProgram` (and the move does not complete on
that tick), a program-edit request — or any line other than the abort
line `X` — is silently discarded: the program store is left unchanged
and no event at all (in particular no `Busy` rejection) is emitted
beyond the motion service's step. -/
theorem C1_edit_mid_move_ignored (m : Machine) (d : Bool) (c : Cmd)
    (hst : m.mstate = MState.movingManual ∨ m.mstate = MState.movingProg)
    (hnd : |(serviceMotion m d).1.pos| < m.gTargetDist)
    (hc : c ≠ Cmd.abortX) :
    (tick m ⟨d, some c⟩).1.program = m.program ∧
    (tick m ⟨d, some c⟩).2 = (serviceMotion m d).2 ∧
    Ev.rejectedBusy ∉ (tick m ⟨d, some c⟩).2 := by
  rw [tick_moving_ignores_line m d c hst hnd hc]
  refine ⟨serviceMotion_program m d, rfl, ?_⟩
  show Ev.rejectedBusy ∉ (serviceMotion m d).2
  rw [serviceMotion_eq]
  split <;> simp

theorem C1_witness :
    (tick demoStart ⟨true, some Cmd.clear⟩).1.program = demoStart.program ∧
    Ev.rejectedBusy ∉ (tick demoStart ⟨true, some Cmd.clear⟩).2 :=
  have h := C1_edit_mid_move_ignored demoStart true Cmd.clear (Or.inl rfl)
    (by decide) (fun hx => Cmd.noConfusion hx)
  ⟨h.1, h.2.2⟩

/-- Claim C2: an abort request processed mid-move (manual or program)
zeroes the commanded speed and disables the driver within that same
tick, emits `Aborted`, returns the session to idle, and — as long as no
new move command (`M`/`R`) is issued — no further step is requested on
any later tick. -/
theorem C2_abort_hard_stop (m : Machine) (d : Bool)
    (hst : m.mstate = MState.movingManual ∨ m.mstate = MState.movingProg)
    (hnd : |(serviceMotion m d).1.pos| < m.gTargetDist)
    (inps : List TickInput) (hq : ∀ i ∈ inps, startsMove i.line = false) :
    (tick m ⟨d, some Cmd.abortX⟩).1.mstate = MState.idle ∧
    (tick m ⟨d, some Cmd.abortX⟩).1.gMoving = false ∧
    (tick m ⟨d, some Cmd.abortX⟩).1.enabled = false ∧
    (tick m ⟨d, some Cmd.abortX⟩).2 =
      (serviceMotion m d).2 ++
        [Ev.setSpeedZero, Ev.outputsDisabled, Ev.aborted, Ev.menuShown] ∧
    Ev.stepTaken ∉ (ticks (tick m ⟨d, some Cmd.abortX⟩).1 inps).2 := by
  rw [tick_moving_abort m d hst hnd]
  exact ⟨rfl, rfl, rfl, rfl, (ticks_idle_no_step inps _ rfl rfl hq).2.2⟩

theorem C2_witness :
    (tick demoStart ⟨true, some Cmd.abortX⟩).1.mstate = MState.idle ∧
    (tick demoStart ⟨true, some Cmd.abortX⟩).1.gMoving = false ∧
    (tick demoStart ⟨true, some Cmd.abortX⟩).1.enabled = false ∧
    Ev.stepTaken ∉
      (ticks (tick demoStart ⟨true, some Cmd.abortX⟩).1
        [quiet, ⟨true, some Cmd.clear⟩]).2 :=
  have h := C2_abort_hard_stop demoStart true (Or.inl rfl) (by decide)
    [quiet, ⟨true, some Cmd.clear⟩] (by decide)
  ⟨h.1, h.2.1, h.2.2.1, h.2.2.2.2⟩

/-- Claim C9: in every state reachable from reset by passes of
`loop()`, `STATE_IDLE` implies `g_moving = false`, and hence the
motion-service branch never commands a step on a tick that starts from
an idle session. -/
theorem C9_idle_not_moving (m : Machine) (hr : Reachable m) :
    (m.mstate = MState.idle → m.gMoving = false) ∧
    (m.mstate = MState.idle → ∀ i : TickInput, Ev.stepTaken ∉ (tick m i).2) := by
  have hinv : m.mstate = MState.idle → m.gMoving = false := by
    induction hr with
    | init => intro _; rfl
    | step i hr ih => exact tick_preserves_idleInv _ i ih
  exact ⟨hinv, fun hidle i => (tick_idle m i hidle (hinv hidle)).1⟩

theorem C9_witness :
    initMachine.gMoving = false ∧ Ev.stepTaken ∉ (tick initMachine quiet).2 :=
  have h := C9_idle_not_moving initMachine Reachable.init
  ⟨h.1 rfl, h.2 rfl quiet⟩

/-! ### Program store: add and delete (C6, C7) -/

theorem deleteShift_length (l : List GStep) : ∀ i, i < l.length →
    (deleteShift l i).length + 1 = l.length := by
  induction l with
  | nil =>
    intro i h
    simp at h
  | cons a t ih =>
    intro i h
    cases i with
    | zero => simp [deleteShift]
    | succ i =>
      have h2 := ih i (by simpa using h)
      simp only [deleteShift, List.length_cons]
      omega

theorem deleteShift_getElem_lt (l : List GStep) : ∀ i j : Nat, j < i →
    (deleteShift l i)[j]? = l[j]? := by
  induction l with
  | nil =>
    intro i j _
    cases i <;> simp [deleteShift]
  | cons a t ih =>
    intro i j hj
    cases i with
    | zero => omega
    | succ i =>
      cases j with
      | zero => simp [deleteShift]
      | succ j =>
        simp only [deleteShift, List.getElem?_cons_succ]
        exact ih i j (by omega)

theorem deleteShift_getElem_ge (l : List GStep) : ∀ i j : Nat, i ≤ j →
    (deleteShift l i)[j]? = l[j + 1]? := by
  induction l with
  | nil =>
    intro i j _
    cases i <;> simp [deleteShift]
  | cons a t ih =>
    intro i j hij
    cases i with
    | zero =>
      simp only [deleteShift, List.getElem?_cons_succ]
    | succ i =>
      cases j with
      | zero => omega
      | succ j =>
        simp only [deleteShift, List.getElem?_cons_succ]
        exact ih i j (by omega)

/-- Claim C6: adding to a full store (5 entries) fails with the
program-full error and leaves the stored sequence unchanged; adding to
a store with fewer than 5 entries appends, so the resulting sequence's
last element is the added spec. -/
theorem C6_add_full_or_append (prog : List GStep) (st : GStep) :
    (prog.length = 5 →
      applyEdit prog (EditOp.add st) = (prog, [Ev.programFull])) ∧
    (prog.length < 5 →
      (applyEdit prog (EditOp.add st)).1 = prog ++ [st] ∧
      (applyEdit prog (EditOp.add st)).1.getLast? = some st ∧
      (applyEdit prog (EditOp.add st)).2 = [Ev.stepAdded]) := by
  have e1 : applyEdit prog (EditOp.add st) =
      if 5 ≤ prog.length then (prog, [Ev.programFull])
      else (prog ++ [st], [Ev.stepAdded]) := rfl
  constructor
  · intro h5
    rw [e1, if_pos (by omega)]
  · intro h5
    rw [e1, if_neg (by omega)]
    exact ⟨rfl, List.getLast?_concat _, rfl⟩

theorem C6_witness :
    applyEdit [dummyStep, dummyStep, dummyStep, dummyStep, dummyStep]
        (EditOp.add demoSpec) =
      ([dummyStep, dummyStep, dummyStep, dummyStep, dummyStep], [Ev.programFull]) ∧
    (applyEdit [dummyStep] (EditOp.add demoSpec)).1.getLast? = some demoSpec :=
  ⟨(C6_add_full_or_append [dummyStep, dummyStep, dummyStep, dummyStep, dummyStep]
      demoSpec).1 rfl,
   ((C6_add_full_or_append [dummyStep] demoSpec).2 (by decide)).2.1⟩

/-- Claim C7: deleting at a 0-based index `i` inside `[0, len)` (the
console line carries the 1-based number `i + 1`) removes exactly the
element at `i`, shifts each later element down by one, and shrinks the
store by one; a 1-based number whose index falls outside `[0, len)` —
in particular `i = len` — fails with the invalid-step error and leaves
the store unchanged. -/
theorem C7_delete_shifts_or_rejects (prog : List GStep) :
    (∀ i : Nat, i < prog.length →
      (applyEdit prog (EditOp.del ((i : Int) + 1))).1 = deleteShift prog i ∧
      (applyEdit prog (EditOp.del ((i : Int) + 1))).2 = [Ev.stepDeleted] ∧
      (deleteShift prog i).length + 1 = prog.length ∧
      (∀ j : Nat, j < i → (deleteShift prog i)[j]? = prog[j]?) ∧
      (∀ j : Nat, i ≤ j → (deleteShift prog i)[j]? = prog[j + 1]?)) ∧
    (∀ n : Int, (n - 1 < 0 ∨ (prog.length : Int) ≤ n - 1) →
      applyEdit prog (EditOp.del n) = (prog, [Ev.invalidStepNumber])) := by
  constructor
  · intro i hi
    have e1 : applyEdit prog (EditOp.del ((i : Int) + 1)) =
        if (i : Int) + 1 - 1 < 0 ∨ (prog.length : Int) ≤ (i : Int) + 1 - 1
        then (prog, [Ev.invalidStepNumber])
        else (deleteShift prog ((i : Int) + 1 - 1).toNat, [Ev.stepDeleted]) := rfl
    have hcond : ¬ ((i : Int) + 1 - 1 < 0 ∨ (prog.length : Int) ≤ (i : Int) + 1 - 1) := by
      push_neg
      constructor <;> omega
    rw [e1, if_neg hcond, show ((i : Int) + 1 - 1).toNat = i from by omega]
    exact ⟨rfl, rfl, deleteShift_length prog i hi,
      fun j hj => deleteShift_getElem_lt prog i j hj,
      fun j hj => deleteShift_getElem_ge prog i j hj⟩
  · intro n hn
    have e2 : applyEdit prog (EditOp.del n) =
        if n - 1 < 0 ∨ (prog.length : Int) ≤ n - 1
        then (prog, [Ev.invalidStepNumber])
        else (deleteShift prog (n - 1).toNat, [Ev.stepDeleted]) := rfl
    rw [e2, if_pos hn]

/-- A third distinct spec used in concrete store scenarios. -/
def stepC : GStep := ⟨false, 3, 2, 2, 0⟩

theorem C7_witness :
    (applyEdit [demoSpec, dummyStep, stepC] (EditOp.del (((1 : Nat) : Int) + 1))).1 =
      [demoSpec, stepC] ∧
    applyEdit [demoSpec] (EditOp.del 2) = ([demoSpec], [Ev.invalidStepNumber]) := by
  constructor
  · rw [((C7_delete_shifts_or_rejects [demoSpec, dummyStep, stepC]).1 1 (by decide)).1]
    decide
  · exact (C7_delete_shifts_or_rejects [demoSpec]).2 2 (by decide)

/-! ### Claim C8: program sequencing and the full-run round trip -/

/-- A stored program `P`, loaded and started with the `R` command from
reset, then run on quiet ticks for exactly its total step distance. -/
def runProgram (P : List GStep) : Machine × List Ev :=
  ticks (processCmd { initMachine with program := P } Cmd.run).1
    (List.replicate (sumDist P) quiet)

theorem completionEvs_concat (r : Nat) : ∀ i : Nat, ∃ L : List Ev,
    completionEvs i r = L ++ [Ev.programComplete] ∧
    Ev.programComplete ∉ L ∧ L.length = r := by
  induction r with
  | zero =>
    intro i
    exact ⟨[], rfl, by simp, rfl⟩
  | succ r ih =>
    intro i
    obtain ⟨L, hL, hmem, hlen⟩ := ih (i + 1)
    refine ⟨Ev.stepAdvanced (i + 2) :: L, ?_, ?_, by simp [hlen]⟩
    · rw [show completionEvs i (r + 1) =
        Ev.stepAdvanced (i + 2) :: completionEvs (i + 1) r from rfl, hL]
      rfl
    · intro h
      rcases List.mem_cons.mp h with h | h
      · cases h
      · exact hmem h

theorem completionEvs_length (r : Nat) : ∀ i : Nat,
    (completionEvs i r).length = r + 1 := by
  induction r with
  | zero =>
    intro i
    rfl
  | succ r ih =>
    intro i
    rw [show completionEvs i (r + 1) =
      Ev.stepAdvanced (i + 2) :: completionEvs (i + 1) r from rfl]
    simp [ih]

/-- Claim C8: on each tick in `RunningProgram` whose move completes,
with further steps stored the firmware starts `program[i+1]`,
re-enables the driver, prints the step-advance message and stays in
`RunningProgram(i+1)`; with no further step it disables the driver,
prints `ProgramComplete` and returns to idle.  Consequently a full run
of an `N`-step program produces exactly `N` per-step completion events —
`N - 1` step advances culminating in one `ProgramComplete`, which is
the last completion event. -/
theorem C8_program_sequencing :
    (∀ (m : Machine) (k : Nat),
      m.mstate = MState.movingProg → m.gMoving = true →
      m.pos = dirPos m.gFwd k → m.gTargetDist ≤ (k : Int) + 1 →
      (m.progStepIndex + 1 < m.program.length →
        (tick m quiet).1.mstate = MState.movingProg ∧
        (tick m quiet).1.progStepIndex = m.progStepIndex + 1 ∧
        (tick m quiet).1.gMoving = true ∧
        (tick m quiet).1.enabled = true ∧
        (tick m quiet).1.gTargetDist =
          (m.program.getD (m.progStepIndex + 1) dummyStep).distance ∧
        Ev.stepAdvanced (m.progStepIndex + 2) ∈ (tick m quiet).2 ∧
        Ev.outputsEnabled ∈ (tick m quiet).2) ∧
      (¬ m.progStepIndex + 1 < m.program.length →
        (tick m quiet).1.mstate = MState.idle ∧
        (tick m quiet).1.gMoving = false ∧
        (tick m quiet).1.enabled = false ∧
        Ev.programComplete ∈ (tick m quiet).2)) ∧
    (∀ P : List GStep, P ≠ [] → (∀ st ∈ P, 1 ≤ st.distance) →
      (runProgram P).1.mstate = MState.idle ∧
      (runProgram P).2.filter isCompletion = completionEvs 0 (P.length - 1) ∧
      ((runProgram P).2.filter isCompletion).length = P.length ∧
      ((runProgram P).2.filter isCompletion).getLast? = some Ev.programComplete ∧
      ((runProgram P).2.filter isCompletion).count Ev.programComplete = 1) := by
  constructor
  · intro m k hst hmv hpos htg
    constructor
    · intro hlt
      rw [tick_prog_done_advance m k hst hmv hpos htg hlt]
      exact ⟨hst, rfl, rfl, rfl, rfl, by simp, by simp⟩
    · intro hge
      rw [tick_prog_done_complete m k hst hmv hpos htg hge]
      exact ⟨rfl, rfl, rfl, by simp⟩
  · intro P hne hd
    have hidx : 0 < P.length := List.length_pos.mpr hne
    have hlen0 : ¬ ({ initMachine with program := P } : Machine).program.length = 0 := by
      show ¬ P.length = 0
      omega
    have hm0 : (processCmd { initMachine with program := P } Cmd.run).1 =
        startStep
          { initMachine with
              program := P
              progStepIndex := 0
              enabled := true
              mstate := MState.movingProg }
          (P.getD 0 dummyStep) := by
      simp only [processCmd]
      rw [if_neg hlen0]
    have hPcons := drop_getD_cons P 0 hidx
    rw [List.drop_zero] at hPcons
    rw [show (0 : Nat) + 1 = 1 from rfl] at hPcons
    have hmem0 : P.getD 0 dummyStep ∈ P := by
      rw [hPcons]
      exact List.mem_cons_self _ _
    have h1d : 1 ≤ (P.getD 0 dummyStep).distance := hd _ hmem0
    have hfuel : sumDist P = ((P.getD 0 dummyStep).distance.toNat - 0) +
        sumDist (P.drop 1) := by
      conv_lhs => rw [hPcons]
      rw [sumDist_cons]
      omega
    have hrun := ticks_prog_run (sumDist P)
      (startStep
        { initMachine with
            program := P
            progStepIndex := 0
            enabled := true
            mstate := MState.movingProg }
        (P.getD 0 dummyStep)) 0
      rfl rfl hidx ((dirPos_zero _).symm) rfl
      (by
        show (0 : Int) < (P.getD 0 dummyStep).distance
        omega)
      (fun st hm => hd st (List.mem_of_mem_drop hm))
      hfuel
    rw [show runProgram P =
      ticks (processCmd { initMachine with program := P } Cmd.run).1
        (List.replicate (sumDist P) quiet) from rfl, hm0]
    obtain ⟨L, hL, hmemL, hlenL⟩ := completionEvs_concat (P.length - 1) 0
    have hfilter : (ticks
        (startStep
          { initMachine with
              program := P
              progStepIndex := 0
              enabled := true
              mstate := MState.movingProg }
          (P.getD 0 dummyStep)) (List.replicate (sumDist P) quiet)).2.filter isCompletion =
        completionEvs 0 (P.length - 1) := hrun.2.2.2
    refine ⟨hrun.1, hfilter, ?_, ?_, ?_⟩
    · rw [hfilter, completionEvs_length]
      omega
    · rw [hfilter, hL]
      exact List.getLast?_concat _
    · rw [hfilter, hL, List.count_append]
      rw [List.count_eq_zero.mpr hmemL]
      rfl

/-- Two short program steps used to exercise a concrete full run. -/
def demoProg : List GStep := [⟨true, 1, 1, 1, 0⟩, ⟨false, 2, 1, 1, 0⟩]

/-- A machine one step short of completing `demoProg`'s first move. -/
def demoDone : Machine :=
  startStep
    { initMachine with
        program := demoProg
        progStepIndex := 0
        enabled := true
        mstate := MState.movingProg }
    (demoProg.getD 0 dummyStep)

theorem C8_witness :
    ((runProgram demoProg).2.filter isCompletion).length = 2 ∧
    (runProgram demoProg).1.mstate = MState.idle ∧
    (tick demoDone quiet).1.progStepIndex = 1 ∧
    (tick demoDone quiet).1.mstate = MState.movingProg :=
  have hrun := C8_program_sequencing.2 demoProg (by decide) (by decide)
  have hper := (C8_program_sequencing.1 demoDone 0 rfl rfl ((dirPos_zero _).symm)
    (by decide)).1 (by decide)
  ⟨hrun.2.2.1, hrun.1, hper.2.1, hper.1⟩

end Microinject
